import Mathlib

/-!
# GPU-Aware Batch Router — verification of the scheduling core

Shallow embedding of the router/worker scheduling core of the
`GPU-Aware-Batch-Router` repository, together with theorems settling the
specification claims about it.

Embedding conventions:
* Go `float64` fields and arithmetic are modelled over `ℚ` (the spec calls the
  score a real-valued function; all score arithmetic is exact field
  arithmetic).
* Go `int`/`int32`/`int64` fields are modelled as `Int` (or `Nat` where the Go
  value is provably non-negative, e.g. slice lengths).
* Pointers that may be `nil` are modelled with `Option`.
* Randomness (`rand.Float64()`) and RPC outcomes are passed in as explicit
  parameters / oracles.
-/

namespace GpuRouter

/-! ## Telemetry (`pb.WorkerMetrics`, proto message)

Fields and types follow `gen/inference/v1`: the VRAM, utilization,
temperature and latency fields are `double` (here `ℚ`), `queue_depth` and
`current_batch` are `int32` (here `Int`), `healthy` is `bool`. -/

structure WorkerMetrics where
  workerId : String := ""
  vramFreeGb : ℚ := 0
  vramTotalGb : ℚ := 0
  gpuUtilization : ℚ := 0
  temperatureC : ℚ := 0
  queueDepth : Int := 0
  avgLatencyMs : ℚ := 0
  currentBatch : Int := 0
  healthy : Bool := false
deriving Repr, DecidableEq, Inhabited

/-! ## Scorer (`pkg/router/scorer.go`, `Score`) -/

/-- Embedding of `Score(m *pb.WorkerMetrics) float64` from
`pkg/router/scorer.go` lines 16–43.  `none` models a nil pointer.  The
control flow mirrors the source: sentinel for nil/unhealthy, the VRAM
headroom term guarded by `m.VramTotalGb > 0`, then the queue, latency,
utilization and thermal terms. -/
def Score (m? : Option WorkerMetrics) : ℚ :=
  match m? with
  | none => -1000
  | some m =>
    if m.healthy = false then -1000
    else
      let s0 : ℚ := 0
      let s1 := if 0 < m.vramTotalGb then s0 + (m.vramFreeGb / m.vramTotalGb) * 100 else s0
      let s2 := s1 - (m.queueDepth : ℚ) / 10
      let s3 := s2 - m.avgLatencyMs / 10
      let s4 := s3 - (m.gpuUtilization / 100) * 50
      if 80 < m.temperatureC then s4 - 50 else s4

/-- The score formula exactly as the specification writes it (§4.7),
including the VRAM headroom term unconditionally.  Used to compare the
specified formula against the implemented `Score`. -/
def specScoreFormula (m : WorkerMetrics) : ℚ :=
  (m.vramFreeGb / m.vramTotalGb) * 100
    - (m.queueDepth : ℚ) / 10
    - m.avgLatencyMs / 10
    - (m.gpuUtilization / 100) * 50
    - (if 80 < m.temperatureC then 50 else 0)

/-- A healthy telemetry snapshot whose `vram_total_gb` is negative: the code
skips the VRAM headroom term, the spec formula does not. -/
def negVramMetrics : WorkerMetrics :=
  { workerId := "w0", vramFreeGb := 1, vramTotalGb := -1, healthy := true }

/-- C1 (counterexample): the claim "for every non-nil telemetry snapshot m
with m.Healthy = true, Score(m) equals the spec formula" is false: on a
healthy snapshot with `vram_total_gb = -1` the implementation skips the
VRAM headroom term (`Score = 0`) while the spec formula evaluates to
`-100`. -/
theorem score_claim_counterexample :
    negVramMetrics.healthy = true ∧
    Score (some negVramMetrics) = 0 ∧
    specScoreFormula negVramMetrics = -100 ∧
    Score (some negVramMetrics) ≠ specScoreFormula negVramMetrics := by
  refine ⟨rfl, ?_, ?_, ?_⟩ <;> norm_num [Score, specScoreFormula, negVramMetrics]

/-- C1 (amended): for every healthy snapshot with `vram_total_gb > 0` the
implemented `Score` equals the spec formula; nil or unhealthy telemetry
yields the sentinel `-1000`; and `Score` is pure — equal snapshots give
equal values. -/
theorem score_matches_spec_formula (m : WorkerMetrics)
    (hh : m.healthy = true) (hv : 0 < m.vramTotalGb) :
    Score (some m) = specScoreFormula m ∧
    Score none = -1000 ∧
    (∀ m' : WorkerMetrics, m'.healthy = false → Score (some m') = -1000) ∧
    (∀ a b : Option WorkerMetrics, a = b → Score a = Score b) := by
  refine ⟨?_, rfl, ?_, ?_⟩
  · simp only [Score, specScoreFormula, hh, Bool.true_eq_false, if_false, hv, if_true]
    split <;> ring
  · intro m' hm'
    simp [Score, hm']
  · intro a b hab; rw [hab]

/-- A concrete healthy snapshot with positive total VRAM, used as witness
input. -/
def sampleHealthyMetrics : WorkerMetrics :=
  { workerId := "w1", vramFreeGb := 3, vramTotalGb := 4, gpuUtilization := 50,
    temperatureC := 85, queueDepth := 20, avgLatencyMs := 30, healthy := true }

/-- C1 witness: the amended theorem applied to a concrete healthy snapshot
with positive total VRAM. -/
theorem score_matches_spec_formula_witness :
    sampleHealthyMetrics.healthy = true ∧
    0 < sampleHealthyMetrics.vramTotalGb ∧
    Score (some sampleHealthyMetrics) = specScoreFormula sampleHealthyMetrics :=
  ⟨rfl, by norm_num [sampleHealthyMetrics],
    (score_matches_spec_formula _ rfl (by norm_num [sampleHealthyMetrics])).1⟩

/-- C10: `Score` is total, and when `vram_total_gb ≤ 0` the VRAM headroom
term is skipped entirely: the score equals the sum of the queue-depth,
latency, utilization and thermal penalty terms alone, and does not depend
on `vram_free_gb` at all. -/
theorem score_total_vram_guard (m : WorkerMetrics)
    (hh : m.healthy = true) (hv : m.vramTotalGb ≤ 0) :
    Score (some m) =
      -((m.queueDepth : ℚ) / 10) - m.avgLatencyMs / 10 - (m.gpuUtilization / 100) * 50
        - (if 80 < m.temperatureC then 50 else 0) ∧
    (∀ f : ℚ, Score (some { m with vramFreeGb := f }) = Score (some m)) := by
  have hv' : ¬ (0 < m.vramTotalGb) := not_lt.mpr hv
  constructor
  · simp only [Score, hh, Bool.true_eq_false, if_false, hv', if_true]
    split <;> ring
  · intro f
    simp only [Score, hh, Bool.true_eq_false, if_false, hv', if_true]

/-- A concrete healthy snapshot with zero total VRAM, used as witness
input. -/
def sampleZeroVramMetrics : WorkerMetrics :=
  { workerId := "w2", vramFreeGb := 7, vramTotalGb := 0, queueDepth := 10,
    healthy := true }

/-- C10 witness: the theorem applied to a healthy snapshot with
`vram_total_gb = 0`. -/
theorem score_total_vram_guard_witness :
    sampleZeroVramMetrics.healthy = true ∧
    sampleZeroVramMetrics.vramTotalGb ≤ 0 ∧
    Score (some sampleZeroVramMetrics) =
      -((sampleZeroVramMetrics.queueDepth : ℚ) / 10)
        - sampleZeroVramMetrics.avgLatencyMs / 10
        - (sampleZeroVramMetrics.gpuUtilization / 100) * 50
        - (if 80 < sampleZeroVramMetrics.temperatureC then 50 else 0) :=
  ⟨rfl, by norm_num [sampleZeroVramMetrics],
    (score_total_vram_guard _ rfl (by norm_num [sampleZeroVramMetrics])).1⟩

/-! ## Router → worker forwarding context (`pkg/router/scorer.go`, `Router.Infer`)

A Go `context.Context` is modelled by its two observable aspects for this
claim: whether it is cancelled and its deadline (in milliseconds from now,
`none` = no deadline). -/

structure GoContext where
  cancelled : Bool
  deadlineMs : Option Nat
deriving Repr, DecidableEq

/-- Embedding of the context argument the router passes to
`worker.InferClient.Infer(ctx, req)` in `Router.Infer`
(`pkg/router/scorer.go` line 175): it is the handler's incoming client
context `ctx`, unchanged — no fresh context is constructed. -/
def forwardContext (clientCtx : GoContext) : GoContext := clientCtx

/-- Modelled from the spec: `Router.Infer` is specified (§4.9, §5, and the
repository's own `context.md`: "Router forwarding timeout: Client context →
New 10s context") to forward using a freshly constructed context with its
own 10-second deadline, decoupled from the client's request context.  This
definition is absent from the code under verification. -/
def specForwardContext (_clientCtx : GoContext) : GoContext :=
  { cancelled := false, deadlineMs := some 10000 }

/-- A client context that is already cancelled, with a short deadline. -/
def cancelledClientCtx : GoContext := { cancelled := true, deadlineMs := some 1 }

/-- C5: evaluated at a cancelled client context, the context the router
actually uses for the worker call is that same cancelled client context —
not the fresh 10-second context the spec (and the repository's own
`context.md`) prescribe — so client cancellation propagates into the
router-to-worker call. -/
theorem forward_context_not_decoupled :
    forwardContext cancelledClientCtx = cancelledClientCtx ∧
    (forwardContext cancelledClientCtx).cancelled = true ∧
    specForwardContext cancelledClientCtx =
      { cancelled := false, deadlineMs := some 10000 } ∧
    forwardContext cancelledClientCtx ≠ specForwardContext cancelledClientCtx := by
  refine ⟨rfl, rfl, rfl, ?_⟩
  decide

/-! ## Registry (`pkg/router/registry.go`)

`WorkerEntry` keeps the fields relevant to health tracking; the gRPC
connection handle and clients are abstracted to a `connected` flag
(`InferClient != nil`).  The Go `map[string]*WorkerEntry` is modelled as a
list of entries keyed by address. -/

structure WorkerEntry where
  address : String
  metrics : Option WorkerMetrics
  failCount : Int
  healthy : Bool
  connected : Bool
deriving Repr, DecidableEq, Inhabited

structure Registry where
  workers : List WorkerEntry
deriving Repr, DecidableEq

/-- The placeholder telemetry installed by `NewRegistry`
(`pkg/router/registry.go` lines 37–41). -/
def initMetrics : WorkerMetrics :=
  { healthy := true, vramFreeGb := 5, vramTotalGb := 5 }

/-- Embedding of `NewRegistry` (`pkg/router/registry.go` lines 29–45):
every configured address starts healthy with the placeholder telemetry and
a zero fail count; no connection yet. -/
def NewRegistry (addrs : List String) : Registry :=
  ⟨addrs.map fun a =>
    { address := a, metrics := some initMetrics, failCount := 0,
      healthy := true, connected := false }⟩

/-- Embedding of `Registry.Connect` (lines 48–67): per entry, a successful
dial installs the clients; a failure marks that entry unhealthy and
continues.  `ok` is the oracle of dial outcomes. -/
def Connect (r : Registry) (ok : String → Bool) : Registry :=
  ⟨r.workers.map fun w =>
    if ok w.address then { w with connected := true }
    else { w with healthy := false }⟩

/-- Embedding of `Registry.GetHealthy` (lines 70–81): entries that are
healthy and have a non-nil `InferClient`. -/
def GetHealthy (r : Registry) : List WorkerEntry :=
  r.workers.filter fun w => w.healthy && w.connected

/-- Embedding of `Registry.UpdateMetrics` (lines 96–104): replace the
cached telemetry, reset the fail count, set `healthy` from the
telemetry. -/
def UpdateMetrics (r : Registry) (addr : String) (m : WorkerMetrics) : Registry :=
  ⟨r.workers.map fun w =>
    if w.address = addr then
      { w with metrics := some m, failCount := 0, healthy := m.healthy }
    else w⟩

/-- Embedding of `Registry.MarkFailed` (lines 108–118): increment the fail
count; once it reaches 3, clear `healthy`. -/
def MarkFailed (r : Registry) (addr : String) : Registry :=
  ⟨r.workers.map fun w =>
    if w.address = addr then
      { w with failCount := w.failCount + 1,
               healthy := if 3 ≤ w.failCount + 1 then false else w.healthy }
    else w⟩

/-- Embedding of `Registry.MarkHealthy` (lines 121–128). -/
def MarkHealthy (r : Registry) (addr : String) : Registry :=
  ⟨r.workers.map fun w =>
    if w.address = addr then { w with failCount := 0, healthy := true }
    else w⟩

/-- Registry states reachable from startup through the registry's mutating
API.  A successful forward performs no registry mutation in the source
(`Router.Infer` only calls `MarkFailed`, on failures), so it contributes no
step. -/
inductive RegReachable (addrs : List String) : Registry → Prop
  | init : RegReachable addrs (NewRegistry addrs)
  | connect {r} (ok : String → Bool) :
      RegReachable addrs r → RegReachable addrs (Connect r ok)
  | update {r} (a : String) (m : WorkerMetrics) :
      RegReachable addrs r → RegReachable addrs (UpdateMetrics r a m)
  | failed {r} (a : String) :
      RegReachable addrs r → RegReachable addrs (MarkFailed r a)
  | markHealthy {r} (a : String) :
      RegReachable addrs r → RegReachable addrs (MarkHealthy r a)

/-- A reachable state refuting "healthy ⇔ fail count < 3": one worker whose
poll returned telemetry with a false healthy flag. -/
def regUnhealthyTelemetry : Registry :=
  UpdateMetrics (NewRegistry ["a"]) "a" { healthy := false }

/-- C7 (counterexample): in the reachable state obtained by a single
`UpdateMetrics` carrying unhealthy telemetry, the worker has fail count 0
(< 3) yet `healthy = false`, so the claimed "healthy iff fail count below
3" equivalence is false. -/
theorem registry_healthy_iff_counterexample :
    RegReachable ["a"] regUnhealthyTelemetry ∧
    (regUnhealthyTelemetry.workers.map fun w => (w.failCount, w.healthy)) = [(0, false)] ∧
    ¬ (∀ r, RegReachable ["a"] r →
        ∀ w ∈ r.workers, (w.healthy = true ↔ w.failCount < 3)) := by
  have hreach : RegReachable ["a"] regUnhealthyTelemetry :=
    RegReachable.update "a" { healthy := false } RegReachable.init
  refine ⟨hreach, by decide, ?_⟩
  intro h
  have hw := h _ hreach
  have hmem : ({ address := "a", metrics := some { healthy := false },
                 failCount := 0, healthy := false, connected := false } : WorkerEntry)
      ∈ regUnhealthyTelemetry.workers := by
    decide
  have := (hw _ hmem).mpr (by decide)
  simp at this

/-- C7 (amended): in every reachable registry state, a fail count at or
above 3 forces `healthy = false` (equivalently, a healthy entry has fewer
than 3 consecutive failures); `UpdateMetrics` resets the fail count to 0
and sets `healthy` from the telemetry's flag; `MarkFailed` increments the
count and clears `healthy` once the count reaches 3; `MarkHealthy` zeroes
the count and sets `healthy`; and an unhealthy worker is healed by a
successful poll whose telemetry reports healthy.  (Successful forwards do
not touch the registry; see the `Router.Infer` theorem.) -/
theorem registry_health_transitions (addrs : List String) (r : Registry)
    (hr : RegReachable addrs r) :
    (∀ w ∈ r.workers, 3 ≤ w.failCount → w.healthy = false) ∧
    (∀ a m w, w ∈ r.workers → w.address = a →
      ({ w with metrics := some m, failCount := 0, healthy := m.healthy } : WorkerEntry)
        ∈ (UpdateMetrics r a m).workers) ∧
    (∀ a w, w ∈ r.workers → w.address = a →
      ({ w with failCount := w.failCount + 1,
                healthy := if 3 ≤ w.failCount + 1 then false else w.healthy } : WorkerEntry)
        ∈ (MarkFailed r a).workers) ∧
    (∀ a w, w ∈ r.workers → w.address = a →
      ({ w with failCount := 0, healthy := true } : WorkerEntry)
        ∈ (MarkHealthy r a).workers) ∧
    (∀ a m w, w ∈ r.workers → w.address = a → w.healthy = false → m.healthy = true →
      ({ w with metrics := some m, failCount := 0, healthy := true } : WorkerEntry)
        ∈ (UpdateMetrics r a m).workers) := by
  refine ⟨?_, ?_, ?_, ?_, ?_⟩
  · -- the invariant, by induction over reachability
    induction hr with
    | init =>
      intro w hw h3
      simp only [NewRegistry, List.mem_map] at hw
      obtain ⟨a, _, rfl⟩ := hw
      simp at h3
    | connect ok _ ih =>
      intro w hw h3
      simp only [Connect, List.mem_map] at hw
      obtain ⟨w', hw', rfl⟩ := hw
      cases hok : ok w'.address with
      | false => simp [hok]
      | true =>
        simp only [hok, if_true] at h3 ⊢
        exact ih w' hw' h3
    | update a m _ ih =>
      intro w hw h3
      simp only [UpdateMetrics, List.mem_map] at hw
      obtain ⟨w', hw', rfl⟩ := hw
      by_cases ha : w'.address = a
      · simp only [ha, if_true] at h3
        omega
      · simp only [ha, if_false] at h3 ⊢
        exact ih w' hw' h3
    | failed a _ ih =>
      intro w hw h3
      simp only [MarkFailed, List.mem_map] at hw
      obtain ⟨w', hw', rfl⟩ := hw
      by_cases ha : w'.address = a
      · simp only [ha, if_true] at h3 ⊢
        rw [if_pos]
        omega
      · simp only [ha, if_false] at h3 ⊢
        exact ih w' hw' h3
    | markHealthy a _ ih =>
      intro w hw h3
      simp only [MarkHealthy, List.mem_map] at hw
      obtain ⟨w', hw', rfl⟩ := hw
      by_cases ha : w'.address = a
      · simp only [ha, if_true] at h3
        omega
      · simp only [ha, if_false] at h3 ⊢
        exact ih w' hw' h3
  · intro a m w hw ha
    exact List.mem_map.mpr ⟨w, hw, by rw [if_pos ha]⟩
  · intro a w hw ha
    exact List.mem_map.mpr ⟨w, hw, by rw [if_pos ha]⟩
  · intro a w hw ha
    exact List.mem_map.mpr ⟨w, hw, by rw [if_pos ha]⟩
  · intro a m w hw ha _ hm
    exact List.mem_map.mpr ⟨w, hw, by rw [if_pos ha, hm]⟩

/-- A small concrete reachable registry state used as witness input. -/
def regWitnessState : Registry := MarkFailed (NewRegistry ["a", "b"]) "a"

/-- C7 witness: the amended theorem applied to the concrete reachable state
with one recorded failure on worker "a". -/
theorem registry_health_transitions_witness :
    RegReachable ["a", "b"] regWitnessState ∧
    (regWitnessState.workers.map fun w => (w.failCount, w.healthy)) =
      [(1, true), (0, true)] ∧
    (∀ w ∈ regWitnessState.workers, 3 ≤ w.failCount → w.healthy = false) :=
  ⟨RegReachable.failed "a" RegReachable.init, by decide,
    (registry_health_transitions ["a", "b"] regWitnessState
      (RegReachable.failed "a" RegReachable.init)).1⟩

/-! ## Poller (`pkg/router/poller.go`) -/

/-- The per-call telemetry timeout hard-coded in `Poller.pollAll`
(`pkg/router/poller.go` line 70): `context.WithTimeout(..., 200*time.Millisecond)`,
expressed in milliseconds. -/
def pollTimeoutMs : Nat := 200

/-- Modelled from the spec: the per-call poll timeout prescribed by §4.6
("default ≥ 2 s") and by the repository's own `context.md` ("Poller timeout
increased: 200ms → 5s"); this minimum is absent from the code under
verification. -/
def specMinPollTimeoutMs : Nat := 2000

/-- Embedding of `Poller.pollAll` (`pkg/router/poller.go` lines 58–84): for
each registered entry whose metrics client is non-nil, fetch telemetry;
a successful fetch updates the registry via `UpdateMetrics`, a failed fetch
calls `MarkFailed`.  The concurrent per-worker goroutines are linearized
into a fold over the worker snapshot; `fetch` is the RPC oracle (`none` =
error). -/
def pollAll (r : Registry) (fetch : String → Option WorkerMetrics) : Registry :=
  r.workers.foldl
    (fun acc w =>
      if w.connected = false then acc
      else
        match fetch w.address with
        | some m => UpdateMetrics acc w.address m
        | none => MarkFailed acc w.address)
    r

/-- A two-worker registry with both connections established. -/
def pollDemoRegistry : Registry := Connect (NewRegistry ["a", "b"]) (fun _ => true)

/-- A fetch oracle: worker "a" answers with telemetry, worker "b" times
out. -/
def pollDemoFetch (addr : String) : Option WorkerMetrics :=
  if addr = "a" then some sampleHealthyMetrics else none

/-- C8: the poll dispatch is as claimed — a successful fetch flows into
`UpdateMetrics` and a failed one into `MarkFailed` — but the per-call
timeout in the code is 200 ms, below the specified ≥ 2 s default (the
repository's `context.md` records the operational fix to 5 s, which the
code does not contain). -/
theorem poller_timeout_bug :
    pollTimeoutMs = 200 ∧
    pollTimeoutMs < specMinPollTimeoutMs ∧
    pollAll pollDemoRegistry pollDemoFetch =
      MarkFailed (UpdateMetrics pollDemoRegistry "a" sampleHealthyMetrics) "b" := by
  refine ⟨rfl, by decide, ?_⟩
  decide

/-! ## Worker-side requests (`pkg/worker`, unnamed queue file)

`InferRequest` follows the proto message; `PendingRequest` wraps it
(`DoneCh`/`ErrCh` are modelled by the values `executeBatch` returns, and
the intrusive heap `index` field is dropped — the heap is modelled
positionally). -/

structure InferRequest where
  requestId : String := ""
  payload : String := ""
  timestamp : Int := 0
  modelName : String := ""
  priority : Int := 0
deriving Repr, DecidableEq, Inhabited

structure PendingRequest where
  req : InferRequest
  enqueueAtMs : Int := 0
deriving Repr, DecidableEq, Inhabited

structure InferResponse where
  requestId : String
  result : String
  latencyNs : Int
  batchSize : Int
  queueWaitMs : Int
  priorityUsed : Int
deriving Repr, DecidableEq

/-! ## Batcher (`pkg/worker/batcher.go`) -/

structure BatcherConfig where
  maxBatchSize : Nat := 32
  maxWaitTimeMs : Nat := 50
  minBatchSize : Nat := 1
deriving Repr, DecidableEq

/-- The batcher's adaptive state and counters.  Durations are in
milliseconds. -/
structure BatcherState where
  totalBatches : Int := 0
  totalRequests : Int := 0
  lastBatchSize : Int := 0
  avgLatencyMs : Int := 0
  currentWaitMs : Nat := 0
deriving Repr, DecidableEq

/-- Truncation toward zero, modelling Go's `int64(float64Value)`
conversion. -/
def truncQ (q : ℚ) : Int := Int.tdiv q.num (q.den : Int)

/-- The exponential-moving-average update of `AvgLatencyMs`
(`pkg/worker/batcher.go` lines 155–163): seed with the raw sample when the
average is zero, else `0.7·old + 0.3·sample` truncated to an integer. -/
def emaUpdate (oldAvg lat : Int) : Int :=
  if oldAvg = 0 then lat
  else truncQ ((oldAvg : ℚ) * (7 / 10) + (lat : ℚ) * (3 / 10))

/-- Embedding of `Batcher.adaptWait` (`pkg/worker/batcher.go` lines
192–208) as the new value of `currentWait` given the re-read queue
depth. -/
def adaptWait (cfg : BatcherConfig) (depth : Nat) : Nat :=
  if 100 < depth then 20
  else if depth < 10 then 80
  else cfg.maxWaitTimeMs

/-- Embedding of `Batcher.executeBatch` (`pkg/worker/batcher.go` lines
135–190).  `execResult` is the executor outcome (`.error` = batch
failure), `startMs`/`elapsedMs` the measured wall-clock instants,
`depthAfter` the queue depth observed by `adaptWait` after delivery.
Returns the per-request deliveries (in batch order) and the new state.
Mirrors the source's control flow: counters are updated first; on executor
error every request receives the same error and the function returns
*before* `adaptWait`; on success responses are delivered positionally and
then `adaptWait` retunes `currentWait`. -/
def executeBatch (cfg : BatcherConfig) (s : BatcherState)
    (batch : List PendingRequest) (execResult : Except String (List String))
    (startMs elapsedMs : Int) (depthAfter : Nat) :
    List (PendingRequest × Except String InferResponse) × BatcherState :=
  let batchSize := batch.length
  let s1 : BatcherState :=
    { s with totalBatches := s.totalBatches + 1,
             totalRequests := s.totalRequests + batchSize,
             lastBatchSize := (batchSize : Int),
             avgLatencyMs := emaUpdate s.avgLatencyMs elapsedMs }
  match execResult with
  | .error e => (batch.map fun r => (r, .error e), s1)
  | .ok results =>
      let delivered := (batch.zip results).map fun p =>
        (p.1, Except.ok
          { requestId := p.1.req.requestId
            result := p.2
            latencyNs := elapsedMs * 1000000
            batchSize := (batchSize : Int)
            queueWaitMs := startMs - p.1.enqueueAtMs
            priorityUsed := p.1.req.priority })
      (delivered, { s1 with currentWaitMs := adaptWait cfg depthAfter })

/-- A one-request batch used in the C9 counterexample. -/
def demoBatch : List PendingRequest :=
  [{ req := { requestId := "r1", priority := 2, timestamp := 1 }, enqueueAtMs := 0 }]

/-- C9 (counterexample): after a *failed* batch with post-batch queue depth
200 (> 100), the claim says `currentWait` becomes 20 ms, but the source
returns from `executeBatch` before `adaptWait` on the error path, leaving
`currentWait` at its previous 50 ms. -/
theorem adapt_wait_claim_counterexample :
    (executeBatch {} { currentWaitMs := 50 } demoBatch (.error "cuda failure")
        0 5 200).2.currentWaitMs = 50 ∧
    adaptWait {} 200 = 20 ∧
    (executeBatch {} { currentWaitMs := 50 } demoBatch (.error "cuda failure")
        0 5 200).2.currentWaitMs ≠ 20 := by
  refine ⟨rfl, rfl, ?_⟩
  decide

/-- C9 (amended): after every *successfully* executed batch the batcher
re-reads the queue depth and sets `currentWait` to 20 ms when depth > 100,
80 ms when depth < 10, and the configured MaxWaitTime otherwise; after a
failed batch `currentWait` is left unchanged. -/
theorem adapt_wait_policy (cfg : BatcherConfig) (s : BatcherState)
    (batch : List PendingRequest) (startMs elapsedMs : Int) (depthAfter : Nat) :
    (∀ results,
      (executeBatch cfg s batch (.ok results) startMs elapsedMs depthAfter).2.currentWaitMs =
        if 100 < depthAfter then 20
        else if depthAfter < 10 then 80
        else cfg.maxWaitTimeMs) ∧
    (∀ e,
      (executeBatch cfg s batch (.error e) startMs elapsedMs depthAfter).2.currentWaitMs =
        s.currentWaitMs) := by
  exact ⟨fun results => rfl, fun e => rfl⟩

/-- C9 witness: the amended theorem applied to a concrete state: a
successful batch at depth 200 retunes the wait to 20 ms, a failed one at
the same depth leaves it at 50 ms. -/
theorem adapt_wait_policy_witness :
    (executeBatch {} { currentWaitMs := 50 } demoBatch (.ok ["ok"]) 0 5 200).2.currentWaitMs =
      (if 100 < (200 : Nat) then 20
       else if (200 : Nat) < 10 then 80
       else BatcherConfig.maxWaitTimeMs {}) ∧
    (executeBatch {} { currentWaitMs := 50 } demoBatch (.error "cuda failure")
        0 5 200).2.currentWaitMs = 50 :=
  ⟨(adapt_wait_policy {} { currentWaitMs := 50 } demoBatch 0 5 200).1 ["ok"],
   (adapt_wait_policy {} { currentWaitMs := 50 } demoBatch 0 5 200).2 "cuda failure"⟩

/-! ## Selector (`pkg/router/scorer.go`, `Router.pickBestWorker`)

`sort.Slice(candidates, func(i, j) { return candidates[i].score >
candidates[j].score })` sorts the scored candidates descending by score
with unspecified tie order; it is modelled by an insertion sort with the
same comparator.  `rand.Float64()` is the explicit parameter `r01 ∈ [0,1)`.
-/

/-- Insert a scored candidate into a descending-sorted list. -/
def insertDesc (c : WorkerEntry × ℚ) : List (WorkerEntry × ℚ) → List (WorkerEntry × ℚ)
  | [] => [c]
  | d :: rest => if d.2 < c.2 then c :: d :: rest else d :: insertDesc c rest

/-- Sort scored candidates descending by score (model of `sort.Slice` with
the comparator `score i > score j`). -/
def sortDesc : List (WorkerEntry × ℚ) → List (WorkerEntry × ℚ)
  | [] => []
  | c :: rest => insertDesc c (sortDesc rest)

/-- The scored candidate list (`pkg/router/scorer.go` lines 205–208). -/
def selCandidates (healthy : List WorkerEntry) : List (WorkerEntry × ℚ) :=
  healthy.map fun w => (w, Score w.metrics)

/-- The top-K slice, K = min(3, number of candidates)
(`pkg/router/scorer.go` lines 216–220). -/
def selTop (healthy : List WorkerEntry) : List (WorkerEntry × ℚ) :=
  (sortDesc (selCandidates healthy)).take (min 3 (selCandidates healthy).length)

/-- `minScore := top[topN-1].score` (`pkg/router/scorer.go` line 224). -/
def selMinScore (healthy : List WorkerEntry) : ℚ :=
  ((selTop healthy).getD ((selTop healthy).length - 1) default).2

/-- The shifted weights `w[i] = score[i] - minScore + 1`
(`pkg/router/scorer.go` lines 226–230). -/
def selWeights (healthy : List WorkerEntry) : List ℚ :=
  (selTop healthy).map fun c => c.2 - selMinScore healthy + 1

/-- The cumulative weighted scan (`pkg/router/scorer.go` lines 233–240):
walk the top candidates accumulating `cumulative += w[i]` and return the
first whose cumulative weight reaches the draw `r`.  The weight of each
candidate is computed inline from its score and `minS`, exactly the
`w[i] = score[i] - minScore + 1` of the source. -/
def pickWeighted (r minS : ℚ) : ℚ → List (WorkerEntry × ℚ) → Option WorkerEntry
  | _, [] => none
  | cum, c :: rest =>
      if r ≤ cum + (c.2 - minS + 1) then some c.1
      else pickWeighted r minS (cum + (c.2 - minS + 1)) rest

/-- Embedding of `Router.pickBestWorker` (`pkg/router/scorer.go` lines
194–244), parameterized by the healthy snapshot and the uniform draw
`r01` standing for `rand.Float64()`. -/
def pickBestWorker (healthy : List WorkerEntry) (r01 : ℚ) : Option WorkerEntry :=
  if healthy = [] then none
  else
    let top := selTop healthy
    let r := r01 * (selWeights healthy).sum
    match pickWeighted r (selMinScore healthy) 0 top with
    | some w => some w
    | none => some (top.getD 0 default).1

/-! ### Sorting lemmas -/

theorem insertDesc_perm (c : WorkerEntry × ℚ) (l : List (WorkerEntry × ℚ)) :
    List.Perm (insertDesc c l) (c :: l) := by
  induction l with
  | nil => exact List.Perm.refl _
  | cons d rest ih =>
    by_cases h : d.2 < c.2
    · simp only [insertDesc, h, if_true]
      exact List.Perm.refl _
    · simp only [insertDesc, h, if_false]
      exact (ih.cons d).trans (List.Perm.swap c d rest)

theorem sortDesc_perm (l : List (WorkerEntry × ℚ)) :
    List.Perm (sortDesc l) l := by
  induction l with
  | nil => exact List.Perm.refl _
  | cons c rest ih =>
    exact (insertDesc_perm c (sortDesc rest)).trans (ih.cons c)

theorem mem_insertDesc {x c : WorkerEntry × ℚ} {l : List (WorkerEntry × ℚ)} :
    x ∈ insertDesc c l ↔ x = c ∨ x ∈ l :=
  ⟨fun h => by simpa using (insertDesc_perm c l).mem_iff.mp h,
   fun h => (insertDesc_perm c l).mem_iff.mpr (by simpa using h)⟩

theorem insertDesc_sorted {c : WorkerEntry × ℚ} {l : List (WorkerEntry × ℚ)}
    (hl : l.Pairwise fun a b => b.2 ≤ a.2) :
    (insertDesc c l).Pairwise fun a b => b.2 ≤ a.2 := by
  induction l with
  | nil => simp [insertDesc]
  | cons d rest ih =>
    rcases List.pairwise_cons.mp hl with ⟨hd, hrest⟩
    by_cases h : d.2 < c.2
    · simp only [insertDesc, h, if_true]
      refine List.pairwise_cons.mpr ⟨?_, hl⟩
      intro x hx
      rcases List.mem_cons.mp hx with rfl | hx
      · exact le_of_lt h
      · exact le_trans (hd x hx) (le_of_lt h)
    · simp only [insertDesc, h, if_false]
      refine List.pairwise_cons.mpr ⟨?_, ih hrest⟩
      intro x hx
      rcases mem_insertDesc.mp hx with rfl | hx
      · exact not_lt.mp h
      · exact hd x hx

theorem sortDesc_sorted (l : List (WorkerEntry × ℚ)) :
    (sortDesc l).Pairwise fun a b => b.2 ≤ a.2 := by
  induction l with
  | nil => simp [sortDesc]
  | cons c rest ih => exact insertDesc_sorted ih

/-- `getD` at an in-range index is a member of the list. -/
theorem getD_mem_of_lt {α : Type} [Inhabited α] (l : List α) (n : Nat)
    (h : n < l.length) : l.getD n default ∈ l := by
  rw [List.getD_eq_getElem _ _ h]
  exact List.getElem_mem h

/-- In a non-empty descending-sorted list, the element at the last index is
a minimum. -/
theorem sorted_getD_last_min (l : List (WorkerEntry × ℚ))
    (hs : l.Pairwise fun a b => b.2 ≤ a.2) :
    ∀ c ∈ l, (l.getD (l.length - 1) default).2 ≤ c.2 := by
  induction l with
  | nil => intro c hc; cases hc
  | cons d rest ih =>
    rcases List.pairwise_cons.mp hs with ⟨hd, hrest⟩
    intro c hc
    cases rest with
    | nil =>
      have hcd : c = d := by simpa using hc
      subst hcd
      simp
    | cons e rest' =>
      have hstep : ((d :: e :: rest').getD ((d :: e :: rest').length - 1) default) =
          ((e :: rest').getD ((e :: rest').length - 1) default) := by
        simp [List.getD_cons_succ]
      rcases List.mem_cons.mp hc with rfl | hc
      · rw [hstep]
        have hmem : ((e :: rest').getD ((e :: rest').length - 1) default) ∈ e :: rest' :=
          getD_mem_of_lt _ _ (by simp)
        exact hd _ hmem
      · rw [hstep]
        exact ih hrest c hc

/-- First-hit characterization of the cumulative weighted scan: whenever
the draw is at most the accumulated total, the scan selects the first
candidate whose cumulative weight reaches the draw. -/
theorem pickWeighted_spec (minS : ℚ) :
    ∀ (t : List (WorkerEntry × ℚ)) (r cum : ℚ),
      t ≠ [] →
      r ≤ cum + (t.map fun c => c.2 - minS + 1).sum →
      ∃ i < t.length,
        pickWeighted r minS cum t = some ((t.getD i default).1) ∧
        r ≤ cum + ((t.map fun c => c.2 - minS + 1).take (i + 1)).sum ∧
        ∀ j < i, cum + ((t.map fun c => c.2 - minS + 1).take (j + 1)).sum < r := by
  intro t
  induction t with
  | nil => intro r cum hne _; exact absurd rfl hne
  | cons c rest ih =>
    intro r cum _ hle
    by_cases hhit : r ≤ cum + (c.2 - minS + 1)
    · refine ⟨0, by simp, ?_, ?_, ?_⟩
      · simp [pickWeighted, hhit]
      · simpa using hhit
      · intro j hj; omega
    · have hrest : rest ≠ [] := by
        intro h
        subst h
        simp at hle
        exact hhit (by linarith)
      have hle' : r ≤ (cum + (c.2 - minS + 1)) + (rest.map fun c => c.2 - minS + 1).sum := by
        simp only [List.map_cons, List.sum_cons] at hle
        linarith
      obtain ⟨i, hi, hpick, hcum, hfirst⟩ := ih r (cum + (c.2 - minS + 1)) hrest hle'
      refine ⟨i + 1, by simpa using Nat.succ_lt_succ hi, ?_, ?_, ?_⟩
      · simpa [pickWeighted, hhit] using hpick
      · simp only [List.map_cons, List.take_succ_cons, List.sum_cons]
        linarith
      · intro j hj
        cases j with
        | zero =>
          simpa using not_le.mp hhit
        | succ j' =>
          have := hfirst j' (by omega)
          simp only [List.map_cons, List.take_succ_cons, List.sum_cons]
          linarith

/-- A list of rationals all at least 1 sums to at least its length. -/
theorem one_le_sum_of_forall_one_le :
    ∀ l : List ℚ, (∀ x ∈ l, 1 ≤ x) → (l.length : ℚ) ≤ l.sum := by
  intro l
  induction l with
  | nil => intro _; simp
  | cons x rest ih =>
    intro h
    have hx := h x (by simp)
    have hr := ih fun y hy => h y (by simp [hy])
    simp only [List.length_cons, List.sum_cons]
    push_cast
    linarith

theorem selTop_length (healthy : List WorkerEntry) :
    (selTop healthy).length = min 3 healthy.length := by
  simp only [selTop, List.length_take, selCandidates, List.length_map]
  rw [(sortDesc_perm _).length_eq]
  simp only [List.length_map]
  omega

theorem selTop_sorted (healthy : List WorkerEntry) :
    (selTop healthy).Pairwise fun a b => b.2 ≤ a.2 :=
  (sortDesc_sorted (selCandidates healthy)).sublist (List.take_sublist _ _)

/-- Every shifted weight is at least 1. -/
theorem selWeights_ge_one (healthy : List WorkerEntry) :
    ∀ wt ∈ selWeights healthy, 1 ≤ wt := by
  intro wt hwt
  simp only [selWeights, List.mem_map] at hwt
  obtain ⟨c, hc, rfl⟩ := hwt
  have hmin := sorted_getD_last_min (selTop healthy) (selTop_sorted healthy) c hc
  simp only [selMinScore]
  linarith

/-- C2: worker selection sorts the scored healthy candidates descending,
takes the top K = min(3, #healthy), gives candidate i the weight
`score[i] − min_score_in_topK + 1` (each weight ≥ 1 even with equal
scores), scales the uniform draw `r01 ∈ [0,1)` by the total weight and
returns the first candidate whose cumulative weight reaches the draw; with
zero healthy workers it returns no worker. -/
theorem pick_best_worker_spec (healthy : List WorkerEntry) (r01 : ℚ)
    (h0 : 0 ≤ r01) (h1 : r01 < 1) :
    (healthy = [] → pickBestWorker healthy r01 = none) ∧
    (healthy ≠ [] →
      List.Perm (sortDesc (selCandidates healthy)) (selCandidates healthy) ∧
      (sortDesc (selCandidates healthy)).Pairwise (fun a b => b.2 ≤ a.2) ∧
      (selTop healthy).length = min 3 healthy.length ∧
      (∀ wt ∈ selWeights healthy, 1 ≤ wt) ∧
      (∃ i < (selTop healthy).length,
        pickBestWorker healthy r01 = some ((selTop healthy).getD i default).1 ∧
        r01 * (selWeights healthy).sum ≤ ((selWeights healthy).take (i + 1)).sum ∧
        ∀ j < i, ((selWeights healthy).take (j + 1)).sum < r01 * (selWeights healthy).sum)) := by
  constructor
  · intro h
    simp [pickBestWorker, h]
  · intro hne
    refine ⟨sortDesc_perm _, sortDesc_sorted _, selTop_length _, selWeights_ge_one _, ?_⟩
    have htoplen : (selTop healthy).length = min 3 healthy.length := selTop_length healthy
    have htoppos : 0 < (selTop healthy).length := by
      rw [htoplen]
      have : healthy.length ≠ 0 := fun h => hne (List.length_eq_zero.mp h)
      omega
    have htopne : selTop healthy ≠ [] := by
      intro h
      rw [h] at htoppos
      simp at htoppos
    -- the total weight is positive
    have hsum : ((selTop healthy).length : ℚ) ≤ (selWeights healthy).sum := by
      have := one_le_sum_of_forall_one_le (selWeights healthy) (selWeights_ge_one healthy)
      simpa [selWeights] using this
    have htotpos : 0 < (selWeights healthy).sum := by
      have : (1 : ℚ) ≤ ((selTop healthy).length : ℚ) := by
        exact_mod_cast htoppos
      linarith
    -- the scaled draw lies below the total weight
    have hrlt : r01 * (selWeights healthy).sum < (selWeights healthy).sum := by
      calc r01 * (selWeights healthy).sum
          < 1 * (selWeights healthy).sum := by
            exact mul_lt_mul_of_pos_right h1 htotpos
        _ = (selWeights healthy).sum := one_mul _
    have hweq : (selWeights healthy) =
        (selTop healthy).map fun c => c.2 - selMinScore healthy + 1 := rfl
    obtain ⟨i, hi, hpick, hcum, hfirst⟩ :=
      pickWeighted_spec (selMinScore healthy) (selTop healthy)
        (r01 * (selWeights healthy).sum) 0 htopne
        (by rw [← hweq]; linarith)
    refine ⟨i, hi, ?_, ?_, ?_⟩
    · simp only [pickBestWorker, hne, if_false]
      rw [hpick]
    · simpa [← hweq] using hcum
    · intro j hj
      have := hfirst j hj
      rw [← hweq] at this
      linarith

/-- Two distinct connected healthy workers used as C2 witness input. -/
def demoHealthy : List WorkerEntry :=
  [{ address := "a", metrics := some sampleHealthyMetrics, failCount := 0,
     healthy := true, connected := true },
   { address := "b", metrics := some initMetrics, failCount := 0,
     healthy := true, connected := true }]

/-- C2 witness: the theorem applied at a concrete two-worker snapshot with
the draw 1/2; additionally the selection evaluates concretely — worker "b"
(score 100) beats worker "a" (score −5) at this draw. -/
theorem pick_best_worker_spec_witness :
    (0 : ℚ) ≤ 1 / 2 ∧ (1 / 2 : ℚ) < 1 ∧ demoHealthy ≠ [] ∧
    (∀ wt ∈ selWeights demoHealthy, 1 ≤ wt) ∧
    pickBestWorker demoHealthy (1 / 2) =
      some { address := "b", metrics := some initMetrics, failCount := 0,
             healthy := true, connected := true } :=
  ⟨by norm_num, by norm_num, by simp [demoHealthy],
    ((pick_best_worker_spec demoHealthy (1 / 2) (by norm_num) (by norm_num)).2
      (by simp [demoHealthy])).2.2.2.1,
    by
      norm_num [pickBestWorker, selTop, selCandidates, sortDesc, insertDesc,
        selMinScore, selWeights, pickWeighted, Score, sampleHealthyMetrics,
        initMetrics, demoHealthy]
      intro h
      cases h⟩

/-! ## Router request handler (`pkg/router/scorer.go`, `Router.Infer`)

The gRPC status errors are modelled by a code + message pair; the response
is abstracted to the address of the worker that served the request.  `fw`
is the forwarding oracle: `fw attempt addr = none` means the forward of
attempt `attempt` to worker `addr` succeeded, `some e` that it failed with
`e`.  Besides the outcome, the model returns the final registry and the
trace of addresses actually forwarded to, so that "without forwarding" and
"calls MarkFailed" are statable. -/

inductive GrpcCode
  | ok
  | unavailable
deriving Repr, DecidableEq

structure GrpcError where
  code : GrpcCode
  msg : String
deriving Repr, DecidableEq

inductive InferOutcome
  | ok (addr : String)
  | fail (e : GrpcError)
deriving Repr, DecidableEq

/-- `status.Error(codes.Unavailable, "no healthy workers available")`
(`pkg/router/scorer.go` line 171). -/
def noHealthyError : GrpcError :=
  { code := .unavailable, msg := "no healthy workers available" }

/-- `status.Errorf(codes.Unavailable, "all workers failed: %v", lastErr)`
(`pkg/router/scorer.go` line 190). -/
def allFailedError (last : Option GrpcError) : GrpcError :=
  { code := .unavailable,
    msg := "all workers failed: " ++ (match last with | some e => e.msg | none => "<nil>") }

/-- The retry loop of `Router.Infer` (`pkg/router/scorer.go` lines
161–191), structurally recursive on the remaining attempts (`fuel`
starts at `maxRetries = 3`).  Each iteration picks the best worker from the
current healthy snapshot; no worker ⇒ return `noHealthyError` at once; a
successful forward returns that worker; a failed forward marks the worker
failed in the registry and retries. -/
def inferLoop (seeds : Nat → ℚ) (fw : Nat → String → Option GrpcError) :
    Nat → Nat → Registry → Option GrpcError → InferOutcome × Registry × List String
  | _, 0, reg, lastErr => (.fail (allFailedError lastErr), reg, [])
  | attempt, fuel + 1, reg, lastErr =>
    match pickBestWorker (GetHealthy reg) (seeds attempt) with
    | none => (.fail noHealthyError, reg, [])
    | some w =>
      match fw attempt w.address with
      | none => (.ok w.address, reg, [w.address])
      | some e =>
        let next := inferLoop seeds fw (attempt + 1) fuel (MarkFailed reg w.address) (some e)
        (next.1, next.2.1, w.address :: next.2.2)

/-- Embedding of `Router.Infer`: the retry loop with `maxRetries = 3` and
no last error yet. -/
def routerInfer (reg : Registry) (seeds : Nat → ℚ)
    (fw : Nat → String → Option GrpcError) : InferOutcome × Registry × List String :=
  inferLoop seeds fw 0 3 reg none

theorem pickBestWorker_nil (r01 : ℚ) : pickBestWorker [] r01 = none := by
  simp [pickBestWorker]

/-- C6: `Router.Infer` makes at most 3 forwarding attempts; with no healthy
worker it returns Unavailable "no healthy workers available" without
forwarding and without touching the registry; every failed forward (and
only failed forwards) is followed by `MarkFailed` on that worker's address;
a success reports the last forwarded worker; and when all attempts fail the
result is Unavailable "all workers failed: " carrying the last forwarding
error after exactly 3 attempts. -/
theorem router_infer_spec (reg : Registry) (seeds : Nat → ℚ)
    (fw : Nat → String → Option GrpcError) (res : InferOutcome) (reg' : Registry)
    (tr : List String) (h : routerInfer reg seeds fw = (res, reg', tr)) :
    tr.length ≤ 3 ∧
    (GetHealthy reg = [] → res = .fail noHealthyError ∧ reg' = reg ∧ tr = []) ∧
    noHealthyError = { code := .unavailable, msg := "no healthy workers available" } ∧
    (∀ e, allFailedError (some e) =
      { code := .unavailable, msg := "all workers failed: " ++ e.msg }) ∧
    reg' = (match res with
            | .ok _ => tr.dropLast
            | .fail _ => tr).foldl MarkFailed reg ∧
    (∀ a, res = .ok a → tr.getLast? = some a ∧ fw (tr.length - 1) a = none) ∧
    (∀ e, res = .fail e → e = noHealthyError ∨
      (tr.length = 3 ∧ ∃ a e', tr.getLast? = some a ∧ fw 2 a = some e' ∧
        e = allFailedError (some e'))) := by
  rcases hp0 : pickBestWorker (GetHealthy reg) (seeds 0) with _ | w0
  · have hcalc : routerInfer reg seeds fw = (.fail noHealthyError, reg, []) := by
      simp [routerInfer, inferLoop, hp0]
    have hT := hcalc.symm.trans h
    simp only [Prod.mk.injEq] at hT
    obtain ⟨rfl, rfl, rfl⟩ := hT
    refine ⟨by simp, fun _ => ⟨rfl, rfl, rfl⟩, rfl, fun e => rfl, by simp, ?_, ?_⟩
    · intro a ha; cases ha
    · intro e he
      cases he
      exact Or.inl rfl
  · rcases hf0 : fw 0 w0.address with _ | e0
    · -- first forward succeeds
      have hcalc : routerInfer reg seeds fw = (.ok w0.address, reg, [w0.address]) := by
        simp [routerInfer, inferLoop, hp0, hf0]
      have hT := hcalc.symm.trans h
      simp only [Prod.mk.injEq] at hT
      obtain ⟨rfl, rfl, rfl⟩ := hT
      refine ⟨by simp, ?_, rfl, fun e => rfl, by simp, ?_, ?_⟩
      · intro hE
        rw [hE, pickBestWorker_nil] at hp0
        cases hp0
      · intro a ha
        cases ha
        exact ⟨rfl, by simpa using hf0⟩
      · intro e he; cases he
    · rcases hp1 : pickBestWorker (GetHealthy (MarkFailed reg w0.address)) (seeds 1) with _ | w1
      · have hcalc : routerInfer reg seeds fw =
            (.fail noHealthyError, MarkFailed reg w0.address, [w0.address]) := by
          simp [routerInfer, inferLoop, hp0, hf0, hp1]
        have hT := hcalc.symm.trans h
        simp only [Prod.mk.injEq] at hT
        obtain ⟨rfl, rfl, rfl⟩ := hT
        refine ⟨by simp, ?_, rfl, fun e => rfl, by simp, ?_, ?_⟩
        · intro hE
          rw [hE, pickBestWorker_nil] at hp0
          cases hp0
        · intro a ha; cases ha
        · intro e he
          cases he
          exact Or.inl rfl
      · rcases hf1 : fw 1 w1.address with _ | e1
        · have hcalc : routerInfer reg seeds fw =
              (.ok w1.address, MarkFailed reg w0.address, [w0.address, w1.address]) := by
            simp [routerInfer, inferLoop, hp0, hf0, hp1, hf1]
          have hT := hcalc.symm.trans h
          simp only [Prod.mk.injEq] at hT
          obtain ⟨rfl, rfl, rfl⟩ := hT
          refine ⟨by simp, ?_, rfl, fun e => rfl, by simp, ?_, ?_⟩
          · intro hE
            rw [hE, pickBestWorker_nil] at hp0
            cases hp0
          · intro a ha
            cases ha
            exact ⟨rfl, by simpa using hf1⟩
          · intro e he; cases he
        · rcases hp2 : pickBestWorker
              (GetHealthy (MarkFailed (MarkFailed reg w0.address) w1.address))
              (seeds 2) with _ | w2
          · have hcalc : routerInfer reg seeds fw =
                (.fail noHealthyError,
                  MarkFailed (MarkFailed reg w0.address) w1.address,
                  [w0.address, w1.address]) := by
              simp [routerInfer, inferLoop, hp0, hf0, hp1, hf1, hp2]
            have hT := hcalc.symm.trans h
            simp only [Prod.mk.injEq] at hT
            obtain ⟨rfl, rfl, rfl⟩ := hT
            refine ⟨by simp, ?_, rfl, fun e => rfl, by simp, ?_, ?_⟩
            · intro hE
              rw [hE, pickBestWorker_nil] at hp0
              cases hp0
            · intro a ha; cases ha
            · intro e he
              cases he
              exact Or.inl rfl
          · rcases hf2 : fw 2 w2.address with _ | e2
            · have hcalc : routerInfer reg seeds fw =
                  (.ok w2.address,
                    MarkFailed (MarkFailed reg w0.address) w1.address,
                    [w0.address, w1.address, w2.address]) := by
                simp [routerInfer, inferLoop, hp0, hf0, hp1, hf1, hp2, hf2]
              have hT := hcalc.symm.trans h
              simp only [Prod.mk.injEq] at hT
              obtain ⟨rfl, rfl, rfl⟩ := hT
              refine ⟨by simp, ?_, rfl, fun e => rfl, by simp, ?_, ?_⟩
              · intro hE
                rw [hE, pickBestWorker_nil] at hp0
                cases hp0
              · intro a ha
                cases ha
                exact ⟨rfl, by simpa using hf2⟩
              · intro e he; cases he
            · have hcalc : routerInfer reg seeds fw =
                  (.fail (allFailedError (some e2)),
                    MarkFailed (MarkFailed (MarkFailed reg w0.address) w1.address) w2.address,
                    [w0.address, w1.address, w2.address]) := by
                simp [routerInfer, inferLoop, hp0, hf0, hp1, hf1, hp2, hf2]
              have hT := hcalc.symm.trans h
              simp only [Prod.mk.injEq] at hT
              obtain ⟨rfl, rfl, rfl⟩ := hT
              refine ⟨by simp, ?_, rfl, fun e => rfl, by simp, ?_, ?_⟩
              · intro hE
                rw [hE, pickBestWorker_nil] at hp0
                cases hp0
              · intro a ha; cases ha
              · intro e he
                cases he
                refine Or.inr ⟨by simp, w2.address, e2, ?_, hf2, rfl⟩
                simp

/-- C6 witness: on the concrete two-worker registry with a forwarding
oracle that always succeeds and the draw 0, `Router.Infer` forwards once,
to worker "b", and succeeds. -/
theorem router_infer_spec_witness :
    routerInfer pollDemoRegistry (fun _ => 0) (fun _ _ => none) =
      (InferOutcome.ok "b", pollDemoRegistry, ["b"]) ∧
    (["b"] : List String).length ≤ 3 := by
  have hcalc : routerInfer pollDemoRegistry (fun _ => 0) (fun _ _ => none) =
      (InferOutcome.ok "b", pollDemoRegistry, ["b"]) := by
    norm_num [routerInfer, inferLoop, pickBestWorker, selTop, selCandidates,
      sortDesc, insertDesc, selMinScore, selWeights, pickWeighted, Score,
      GetHealthy, pollDemoRegistry, Connect, NewRegistry, initMetrics]
    rw [if_neg (List.cons_ne_nil _ _)]
  exact ⟨hcalc,
    (router_infer_spec pollDemoRegistry (fun _ => 0) (fun _ _ => none)
      (InferOutcome.ok "b") pollDemoRegistry ["b"] hcalc).1⟩

/-! ## Priority queue (worker-side, unnamed queue file; `container/heap`)

The queue's `items` slice is modelled as a `List PendingRequest` indexed
positionally; `heap.Push`/`heap.Pop` of Go's `container/heap` (sift-up and
sift-down over the `Less`/`Swap` interface) are embedded with explicit
fuel so that every function is structurally recursive and computable.  The
intrusive `index` bookkeeping field has no observable effect and is
dropped. -/

/-- Embedding of `PriorityQueue.Less`: higher priority number first; within
one priority, smaller client timestamp first. -/
def lessReq (a b : PendingRequest) : Bool :=
  if a.req.priority ≠ b.req.priority then decide (b.req.priority < a.req.priority)
  else decide (a.req.timestamp < b.req.timestamp)

/-- Positional read with the default element, modelling `pq.items[i]`. -/
def gd (l : List PendingRequest) (i : Nat) : PendingRequest := l.getD i default

/-- Embedding of `PriorityQueue.Swap`. -/
def swapL (l : List PendingRequest) (i j : Nat) : List PendingRequest :=
  (l.set i (gd l j)).set j (gd l i)

/-- `container/heap`'s `up` (sift-up), fuel-indexed: bubble the element at
`j` towards the root while it is `Less` than its parent. -/
def upAux : Nat → List PendingRequest → Nat → List PendingRequest
  | 0, l, _ => l
  | fuel + 1, l, j =>
    if j = 0 then l
    else
      let i := (j - 1) / 2
      if lessReq (gd l j) (gd l i) then upAux fuel (swapL l i j) i else l

/-- Embedding of `PriorityQueue.Enqueue` = `heap.Push`: append the new
element (`PriorityQueue.Push`) and sift it up from the last index. -/
def heapPush (l : List PendingRequest) (x : PendingRequest) : List PendingRequest :=
  upAux (l.length + 1) (l ++ [x]) l.length

/-- `container/heap`'s `down` (sift-down) within the prefix `[0, n)`,
fuel-indexed: push the element at `i` down towards the `Less`-smaller
child while a child precedes it. -/
def downAux : Nat → List PendingRequest → Nat → Nat → List PendingRequest
  | 0, l, _, _ => l
  | fuel + 1, l, i, n =>
    if 2 * i + 1 < n then
      let j := if 2 * i + 2 < n ∧ lessReq (gd l (2 * i + 2)) (gd l (2 * i + 1)) = true
               then 2 * i + 2 else 2 * i + 1
      if lessReq (gd l j) (gd l i) then downAux fuel (swapL l i j) j n else l
    else l

/-- `heap.Pop`: swap the root with the last element, sift the new root
down over the shortened prefix, then remove and return the last element
(`PriorityQueue.Pop`).  Go panics on an empty heap; `DequeueN` never calls
it then, and the model returns `none`. -/
def heapPop (l : List PendingRequest) : Option (PendingRequest × List PendingRequest) :=
  match l with
  | [] => none
  | _ :: _ =>
    let n := l.length - 1
    let l2 := downAux l.length (swapL l 0 n) 0 n
    some (gd l2 n, l2.take n)

/-- `count` iterations of `heap.Pop`, accumulating the popped elements in
order. -/
def popCount : Nat → List PendingRequest → List PendingRequest × List PendingRequest
  | 0, l => ([], l)
  | k + 1, l =>
    match heapPop l with
    | none => ([], l)
    | some (x, l') =>
      let r := popCount k l'
      (x :: r.1, r.2)

/-- Embedding of `PriorityQueue.DequeueN`: `nil` result on an empty queue,
otherwise pop `min n (queue depth)` items. -/
def dequeueN (l : List PendingRequest) (n : Nat) : List PendingRequest × List PendingRequest :=
  match l with
  | [] => ([], l)
  | _ :: _ => popCount (min n l.length) l

/-- Queue states reachable through the queue's API from
`NewPriorityQueue` (whose `heap.Init` on the empty slice is a no-op). -/
inductive QueueReachable : List PendingRequest → Prop
  | empty : QueueReachable []
  | enq {l} (r : PendingRequest) : QueueReachable l → QueueReachable (heapPush l r)
  | deq {l} (n : Nat) : QueueReachable l → QueueReachable (dequeueN l n).2

/-! ### Order properties of `Less` -/

theorem lessReq_iff (a b : PendingRequest) :
    lessReq a b = true ↔
      (b.req.priority < a.req.priority ∨
        (a.req.priority = b.req.priority ∧ a.req.timestamp < b.req.timestamp)) := by
  unfold lessReq
  by_cases h : a.req.priority = b.req.priority <;> simp [h] <;> omega

theorem lessReq_false_iff (a b : PendingRequest) :
    lessReq a b = false ↔
      ¬(b.req.priority < a.req.priority ∨
        (a.req.priority = b.req.priority ∧ a.req.timestamp < b.req.timestamp)) := by
  rw [← lessReq_iff, Bool.not_eq_true]

/-! ### Positional access and swap -/

theorem gd_set (l : List PendingRequest) (i k : Nat) (v : PendingRequest)
    (hk : k < l.length) :
    gd (l.set i v) k = if i = k then v else gd l k := by
  unfold gd
  rw [List.getD_eq_getElem (l.set i v) default (by simpa using hk),
      List.getElem_set, List.getD_eq_getElem l default hk]

theorem gd_ge_length (l : List PendingRequest) (k : Nat) (h : l.length ≤ k) :
    gd l k = default := List.getD_eq_default _ _ h

theorem length_swapL (l : List PendingRequest) (i j : Nat) :
    (swapL l i j).length = l.length := by
  simp [swapL]

theorem gd_swapL_snd (l : List PendingRequest) (i j : Nat)
    (hi : i < l.length) (hj : j < l.length) :
    gd (swapL l i j) j = gd l i := by
  unfold swapL
  rw [gd_set _ _ _ _ (by simpa using hj)]
  simp

theorem gd_swapL_fst (l : List PendingRequest) (i j : Nat)
    (hi : i < l.length) (hij : i ≠ j) :
    gd (swapL l i j) i = gd l j := by
  unfold swapL
  rw [gd_set _ _ _ _ (by simpa using hi), if_neg (Ne.symm hij),
      gd_set _ _ _ _ hi, if_pos rfl]

theorem gd_swapL_other (l : List PendingRequest) (i j k : Nat)
    (hki : k ≠ i) (hkj : k ≠ j) :
    gd (swapL l i j) k = gd l k := by
  by_cases hk : k < l.length
  · unfold swapL
    rw [gd_set _ _ _ _ (by simpa using hk), if_neg (Ne.symm hkj),
        gd_set _ _ _ _ hk, if_neg (Ne.symm hki)]
  · have hk' : l.length ≤ k := by omega
    rw [gd_ge_length _ _ (by simpa [swapL] using hk'), gd_ge_length _ _ hk']

theorem set_gd_self : ∀ (l : List PendingRequest) (i : Nat), i < l.length →
    l.set i (gd l i) = l := by
  intro l
  induction l with
  | nil => intro i hi; simp at hi
  | cons a t ih =>
    intro i hi
    cases i with
    | zero => simp [gd]
    | succ i' =>
      have : t.set i' (gd t i') = t := ih i' (by simpa using hi)
      simp only [gd, List.getD_cons_succ, List.set_cons_succ]
      rw [show t.getD i' default = gd t i' from rfl, this]

theorem count_set_add : ∀ (l : List PendingRequest) (i : Nat) (v x : PendingRequest),
    i < l.length →
    (l.set i v).count x + (if gd l i = x then 1 else 0) =
      l.count x + (if v = x then 1 else 0) := by
  intro l
  induction l with
  | nil => intro i v x hi; simp at hi
  | cons a t ih =>
    intro i v x hi
    cases i with
    | zero =>
      simp only [List.set_cons_zero, gd, List.getD_cons_zero, List.count_cons,
        beq_iff_eq]
      by_cases hv : v = x <;> by_cases ha : a = x <;> simp [hv, ha] <;> omega
    | succ i' =>
      have h := ih i' v x (by simpa using hi)
      simp only [List.set_cons_succ, gd, List.getD_cons_succ, List.count_cons,
        beq_iff_eq] at h ⊢
      by_cases ha : a = x <;> simp [ha] at h ⊢ <;> omega

theorem swapL_perm (l : List PendingRequest) (i j : Nat)
    (hi : i < l.length) (hj : j < l.length) :
    (swapL l i j).Perm l := by
  rcases eq_or_ne i j with rfl | hij
  · unfold swapL
    rw [List.set_set, set_gd_self l i hi]
  · rw [List.perm_iff_count]
    intro x
    have h1 := count_set_add l i (gd l j) x hi
    have h2 := count_set_add (l.set i (gd l j)) j (gd l i) x (by simpa using hj)
    have hgd : gd (l.set i (gd l j)) j = gd l j := by
      rw [gd_set _ _ _ _ hj, if_neg hij]
    rw [hgd] at h2
    simp only [beq_iff_eq] at h1 h2 ⊢
    unfold swapL
    omega

/-! ### Sift-up and sift-down preserve length and contents -/

theorem length_upAux : ∀ (fuel : Nat) (l : List PendingRequest) (j : Nat),
    (upAux fuel l j).length = l.length := by
  intro fuel
  induction fuel with
  | zero => intro l j; rfl
  | succ f ih =>
    intro l j
    unfold upAux
    by_cases h0 : j = 0
    · simp [h0]
    · simp only [h0, if_false]
      by_cases hlt : lessReq (gd l j) (gd l ((j - 1) / 2)) = true
      · simp only [hlt, if_true]
        rw [ih, length_swapL]
      · simp [hlt]

theorem upAux_perm : ∀ (fuel : Nat) (l : List PendingRequest) (j : Nat),
    j < l.length → (upAux fuel l j).Perm l := by
  intro fuel
  induction fuel with
  | zero => intro l j _; exact List.Perm.refl _
  | succ f ih =>
    intro l j hj
    unfold upAux
    by_cases h0 : j = 0
    · simp only [h0, if_true]
      exact List.Perm.refl _
    · simp only [h0, if_false]
      by_cases hlt : lessReq (gd l j) (gd l ((j - 1) / 2)) = true
      · simp only [hlt, if_true]
        have hi : (j - 1) / 2 < l.length := by omega
        exact (ih (swapL l ((j - 1) / 2) j) ((j - 1) / 2)
          (by rw [length_swapL]; omega)).trans (swapL_perm l _ _ hi hj)
      · simp [hlt]

theorem length_heapPush (l : List PendingRequest) (x : PendingRequest) :
    (heapPush l x).length = l.length + 1 := by
  unfold heapPush
  rw [length_upAux]
  simp

theorem heapPush_perm (l : List PendingRequest) (x : PendingRequest) :
    (heapPush l x).Perm (x :: l) :=
  (upAux_perm _ _ _ (by simp)).trans (List.perm_append_singleton x l)

theorem length_downAux : ∀ (fuel : Nat) (l : List PendingRequest) (i n : Nat),
    (downAux fuel l i n).length = l.length := by
  intro fuel
  induction fuel with
  | zero => intro l i n; rfl
  | succ f ih =>
    intro l i n
    unfold downAux
    by_cases hc : 2 * i + 1 < n
    · simp only [hc, if_true]
      set j := if 2 * i + 2 < n ∧ lessReq (gd l (2 * i + 2)) (gd l (2 * i + 1)) = true
               then 2 * i + 2 else 2 * i + 1 with hjdef
      by_cases hlt : lessReq (gd l j) (gd l i) = true
      · simp only [hlt, if_true]
        rw [ih, length_swapL]
      · simp [hlt]
    · simp [hc]

theorem downAux_perm : ∀ (fuel : Nat) (l : List PendingRequest) (i n : Nat),
    n ≤ l.length → (downAux fuel l i n).Perm l := by
  intro fuel
  induction fuel with
  | zero => intro l i n _; exact List.Perm.refl _
  | succ f ih =>
    intro l i n hn
    unfold downAux
    by_cases hc : 2 * i + 1 < n
    · simp only [hc, if_true]
      set j := if 2 * i + 2 < n ∧ lessReq (gd l (2 * i + 2)) (gd l (2 * i + 1)) = true
               then 2 * i + 2 else 2 * i + 1 with hjdef
      have hjn : j < n := by
        rw [hjdef]
        split <;> omega
      by_cases hlt : lessReq (gd l j) (gd l i) = true
      · simp only [hlt, if_true]
        exact (ih (swapL l i j) j n (by rw [length_swapL]; exact hn)).trans
          (swapL_perm l i j (by omega) (by omega))
      · simp [hlt]
    · simp [hc]

theorem downAux_gd_ge : ∀ (fuel : Nat) (l : List PendingRequest) (i n k : Nat),
    n ≤ k → gd (downAux fuel l i n) k = gd l k := by
  intro fuel
  induction fuel with
  | zero => intro l i n k _; rfl
  | succ f ih =>
    intro l i n k hk
    unfold downAux
    by_cases hc : 2 * i + 1 < n
    · simp only [hc, if_true]
      set j := if 2 * i + 2 < n ∧ lessReq (gd l (2 * i + 2)) (gd l (2 * i + 1)) = true
               then 2 * i + 2 else 2 * i + 1 with hjdef
      have hjn : j < n := by
        rw [hjdef]
        split <;> omega
      by_cases hlt : lessReq (gd l j) (gd l i) = true
      · simp only [hlt, if_true]
        rw [ih _ _ _ _ hk, gd_swapL_other _ _ _ _ (by omega) (by omega)]
      · simp [hlt]
    · simp [hc]

/-- A list of length `n + 1` is its `n`-prefix followed by its last
element. -/
theorem eq_take_append_gd : ∀ (l : List PendingRequest) (n : Nat),
    l.length = n + 1 → l = l.take n ++ [gd l n] := by
  intro l
  induction l with
  | nil => intro n h; simp at h
  | cons a t ih =>
    intro n h
    cases n with
    | zero =>
      have ht : t = [] := by
        cases t with
        | nil => rfl
        | cons b t' => simp at h
      subst ht
      simp [gd]
    | succ n' =>
      have ht : t.length = n' + 1 := by simpa using h
      have := ih n' ht
      simp only [List.take_succ_cons, gd, List.getD_cons_succ, List.cons_append,
        List.cons.injEq, true_and]
      exact this

theorem heapPop_perm {l : List PendingRequest} {x : PendingRequest}
    {l' : List PendingRequest} (h : heapPop l = some (x, l')) :
    (x :: l').Perm l ∧ l'.length = l.length - 1 := by
  cases l with
  | nil => cases h
  | cons a t =>
    simp only [heapPop] at h
    set n := (a :: t).length - 1 with hn
    set l2 := downAux (a :: t).length (swapL (a :: t) 0 n) 0 n with hl2
    have hx : x = gd l2 n := by
      injection h with h'
      injection h' with h1 h2
      exact h1.symm
    have hl' : l' = l2.take n := by
      injection h with h'
      injection h' with h1 h2
      exact h2.symm
    have hlen2 : l2.length = (a :: t).length := by
      rw [hl2, length_downAux, length_swapL]
    have hperm2 : l2.Perm (a :: t) := by
      rw [hl2]
      exact (downAux_perm _ _ _ _ (by rw [length_swapL]; omega)).trans
        (swapL_perm _ _ _ (by simp) (by simp [hn]))
    have hsplit : l2 = l2.take n ++ [gd l2 n] :=
      eq_take_append_gd l2 n (by rw [hlen2]; simp [hn])
    constructor
    · subst hx hl'
      have h1 : (gd l2 n :: l2.take n).Perm (l2.take n ++ [gd l2 n]) :=
        (List.perm_append_singleton _ _).symm
      rw [← hsplit] at h1
      exact h1.trans hperm2
    · subst hl'
      rw [List.length_take, hlen2]
      omega

theorem popCount_perm : ∀ (k : Nat) (l : List PendingRequest),
    ((popCount k l).1 ++ (popCount k l).2).Perm l := by
  intro k
  induction k with
  | zero => intro l; simp [popCount]
  | succ k' ih =>
    intro l
    rcases hp : heapPop l with _ | ⟨x, l'⟩
    · simp [popCount, hp]
    · have hrec := ih l'
      have hpp := (heapPop_perm hp).1
      simp only [popCount, hp]
      exact ((hrec.cons x).trans hpp)

theorem dequeueN_perm (l : List PendingRequest) (n : Nat) :
    ((dequeueN l n).1 ++ (dequeueN l n).2).Perm l := by
  cases l with
  | nil => simp [dequeueN]
  | cons a t => exact popCount_perm _ _

/-! ### Operation traces: no loss, no duplication (C4) -/

/-- A queue API call: `Enqueue` of a request or `DequeueN n`. -/
inductive QOp
  | enq (r : PendingRequest)
  | deq (n : Nat)

/-- Run a trace of queue operations from a given queue state, collecting
every `DequeueN` result (in call order) and the final state. -/
def runOps : List QOp → List PendingRequest →
    List (List PendingRequest) × List PendingRequest
  | [], l => ([], l)
  | QOp.enq r :: ops, l => runOps ops (heapPush l r)
  | QOp.deq n :: ops, l =>
    let d := dequeueN l n
    let rest := runOps ops d.2
    (d.1 :: rest.1, rest.2)

/-- The multiset (as a list) of requests enqueued by a trace. -/
def enqueuedOf : List QOp → List PendingRequest
  | [] => []
  | QOp.enq r :: ops => r :: enqueuedOf ops
  | QOp.deq _ :: ops => enqueuedOf ops

/-- Conservation: over any trace from any start state, every request value
is accounted for exactly — dequeued outputs plus the final queue contents
equal the enqueued requests plus the initial contents. -/
theorem runOps_count : ∀ (ops : List QOp) (l : List PendingRequest)
    (x : PendingRequest),
    (runOps ops l).1.flatten.count x + (runOps ops l).2.count x =
      (enqueuedOf ops).count x + l.count x := by
  intro ops
  induction ops with
  | nil => intro l x; simp [runOps, enqueuedOf]
  | cons op ops ih =>
    intro l x
    cases op with
    | enq r =>
      have hp := (heapPush_perm l r).count_eq x
      have hih := ih (heapPush l r) x
      simp only [runOps, enqueuedOf]
      rw [hih, hp]
      simp only [List.count_cons]
      omega
    | deq n =>
      have hd := (dequeueN_perm l n).count_eq x
      rw [List.count_append] at hd
      have hih := ih (dequeueN l n).2 x
      simp only [runOps, enqueuedOf, List.flatten_cons, List.count_append]
      omega

/-- The count of an element in one part is bounded by the count in the
flattened whole. -/
theorem count_le_flatten_count (x : PendingRequest) :
    ∀ (L : List (List PendingRequest)) (out : List PendingRequest),
      out ∈ L → out.count x ≤ L.flatten.count x := by
  intro L
  induction L with
  | nil => intro out h; cases h
  | cons b L'' ih =>
    intro out hout
    rw [List.flatten_cons, List.count_append]
    rcases List.mem_cons.mp hout with rfl | hout'
    · omega
    · have := ih out hout'
      omega

/-- When a total count over a partition of lists is 1, exactly one part
contains the element, once. -/
theorem flatten_count_one : ∀ (L : List (List PendingRequest))
    (x : PendingRequest), L.flatten.count x = 1 →
    L.countP (fun out => decide (x ∈ out)) = 1 ∧ ∀ out ∈ L, out.count x ≤ 1 := by
  intro L
  induction L with
  | nil => intro x h; simp at h
  | cons a L' ih =>
    intro x h
    rw [List.flatten_cons, List.count_append] at h
    by_cases ha : a.count x = 0
    · have hL' : L'.flatten.count x = 1 := by omega
      obtain ⟨h1, h2⟩ := ih x hL'
      have hnx : x ∉ a := List.count_eq_zero.mp ha
      constructor
      · rw [List.countP_cons]
        simp [hnx, h1]
      · intro out hout
        rcases List.mem_cons.mp hout with rfl | hout
        · omega
        · exact h2 out hout
    · have ha1 : a.count x = 1 := by omega
      have hL0 : L'.flatten.count x = 0 := by omega
      have hx : x ∈ a := by
        have : 0 < a.count x := by omega
        exact List.count_pos_iff.mp this
      have hnone : ∀ out ∈ L', x ∉ out := by
        intro out hout hmem
        have h1 : 0 < out.count x := List.count_pos_iff.mpr hmem
        have h2 : out.count x ≤ L'.flatten.count x :=
          count_le_flatten_count x L' out hout
        omega
      constructor
      · rw [List.countP_cons]
        have : L'.countP (fun out => decide (x ∈ out)) = 0 :=
          List.countP_eq_zero.mpr (by
            intro out hout
            simpa using hnone out hout)
        simp [this, hx]
      · intro out hout
        rcases List.mem_cons.mp hout with rfl | hout
        · omega
        · have := hnone out hout
          have : out.count x = 0 := List.count_eq_zero.mpr this
          omega

/-- C4: over every finite trace of `Enqueue`/`DequeueN` operations from the
empty queue, request values are conserved — the dequeued outputs plus the
final queue contents are exactly the enqueued requests (no loss, no
duplication); `Enqueue` always succeeds, growing the queue by exactly its
argument; and once the queue is drained, a request enqueued once appears in
exactly one `DequeueN` result, exactly once. -/
theorem queue_no_loss_no_dup (ops : List QOp) (x : PendingRequest) :
    ((runOps ops []).1.flatten.count x + (runOps ops []).2.count x =
      (enqueuedOf ops).count x) ∧
    (∀ (l : List PendingRequest) (r : PendingRequest),
      (heapPush l r).length = l.length + 1 ∧ (heapPush l r).Perm (r :: l)) ∧
    ((runOps ops []).2 = [] →
      (runOps ops []).1.flatten.count x = (enqueuedOf ops).count x) ∧
    ((runOps ops []).2 = [] → (enqueuedOf ops).count x = 1 →
      (runOps ops []).1.countP (fun out => decide (x ∈ out)) = 1 ∧
      ∀ out ∈ (runOps ops []).1, out.count x ≤ 1) := by
  have hc := runOps_count ops [] x
  simp only [List.count_nil, Nat.add_zero] at hc
  refine ⟨hc, fun l r => ⟨length_heapPush l r, heapPush_perm l r⟩, ?_, ?_⟩
  · intro hdrain
    rw [hdrain] at hc
    simpa using hc
  · intro hdrain hone
    rw [hdrain] at hc
    simp only [List.count_nil, Nat.add_zero] at hc
    exact flatten_count_one _ x (by omega)

/-- A concrete C4 witness trace: enqueue three requests, dequeue two, then
drain the rest. -/
def demoOps : List QOp :=
  [QOp.enq { req := { requestId := "a", priority := 0, timestamp := 1 } },
   QOp.enq { req := { requestId := "b", priority := 2, timestamp := 5 } },
   QOp.enq { req := { requestId := "c", priority := 0, timestamp := 0 } },
   QOp.deq 2,
   QOp.deq 10]

/-- C4 witness: the theorem applied to the concrete trace and the request
"b"; the trace drains the queue, and "b" appears exactly once in exactly
one dequeue result. -/
theorem queue_no_loss_no_dup_witness :
    (runOps demoOps []).2 = [] ∧
    (enqueuedOf demoOps).count
      { req := { requestId := "b", priority := 2, timestamp := 5 } } = 1 ∧
    ((runOps demoOps []).1.countP
        (fun out => decide
          (({ req := { requestId := "b", priority := 2, timestamp := 5 } } :
            PendingRequest) ∈ out)) = 1 ∧
      ∀ out ∈ (runOps demoOps []).1,
        out.count { req := { requestId := "b", priority := 2, timestamp := 5 } } ≤ 1) :=
  ⟨by decide, by decide,
    (queue_no_loss_no_dup demoOps _).2.2.2 (by decide) (by decide)⟩

/-! ### The binary-heap invariant and ordering correctness (C3) -/

/-- The binary-heap property over the prefix `[0, n)`: no element strictly
precedes its parent. -/
def heapInvTo (l : List PendingRequest) (n : Nat) : Prop :=
  ∀ j, 0 < j → j < n → lessReq (gd l j) (gd l ((j - 1) / 2)) = false

/-- The binary-heap property for the whole list. -/
def heapInv (l : List PendingRequest) : Prop := heapInvTo l l.length

theorem lr_irrefl (a : PendingRequest) : lessReq a a = false := by
  rw [lessReq_false_iff]
  omega

theorem lr_asymm {a b : PendingRequest} (h : lessReq a b = true) :
    lessReq b a = false := by
  rw [lessReq_iff] at h
  rw [lessReq_false_iff]
  omega

theorem lr_le_trans {a b c : PendingRequest} (h1 : lessReq b a = false)
    (h2 : lessReq c b = false) : lessReq c a = false := by
  rw [lessReq_false_iff] at h1 h2 ⊢
  omega

theorem lr_lt_le {a b c : PendingRequest} (h1 : lessReq a b = true)
    (h2 : lessReq c b = false) : lessReq c a = false := by
  rw [lessReq_iff] at h1
  rw [lessReq_false_iff] at h2 ⊢
  omega

theorem lr_cancel {a b c : PendingRequest} (h1 : lessReq a b = true)
    (h2 : lessReq a c = false) : lessReq b c = false := by
  rw [lessReq_iff] at h1
  rw [lessReq_false_iff] at h2 ⊢
  omega

/-- In a heap prefix, the root precedes (or ties) every element of the
prefix. -/
theorem heapInvTo_root_min (l : List PendingRequest) (n : Nat)
    (hinv : heapInvTo l n) : ∀ k, k < n → lessReq (gd l k) (gd l 0) = false := by
  intro k
  induction k using Nat.strong_induction_on with
  | _ k ih =>
    intro hk
    rcases Nat.eq_zero_or_pos k with h0 | hpos
    · subst h0
      exact lr_irrefl _
    · have hp : (k - 1) / 2 < k := by omega
      exact lr_le_trans (ih _ hp (by omega)) (hinv k hpos hk)

theorem gd_append_lt (l : List PendingRequest) (x : PendingRequest) (k : Nat)
    (h : k < l.length) : gd (l ++ [x]) k = gd l k := by
  unfold gd
  rw [List.getD_eq_getElem (l ++ [x]) default (by simp; omega),
      List.getElem_append_left h, List.getD_eq_getElem l default h]

theorem gd_append_self (l : List PendingRequest) (x : PendingRequest) :
    gd (l ++ [x]) l.length = x := by
  unfold gd
  rw [List.getD_eq_getElem (l ++ [x]) default (by simp),
      List.getElem_append_right (le_refl _)]
  simp

theorem gd_take (l : List PendingRequest) (n k : Nat) (hk : k < n)
    (hkl : k < l.length) : gd (l.take n) k = gd l k := by
  unfold gd
  rw [List.getD_eq_getElem (l.take n) default (by simp [List.length_take]; omega),
      List.getElem_take, List.getD_eq_getElem l default hkl]

/-- Sift-up correctness: if all heap edges hold except possibly the one
into `j`, and every child of `j` does not precede `j`'s parent, then
sifting up from `j` restores the full heap invariant. -/
theorem upAux_inv : ∀ (fuel : Nat) (l : List PendingRequest) (j : Nat),
    j < l.length → j + 1 ≤ fuel →
    (∀ k, 0 < k → k < l.length → k ≠ j →
      lessReq (gd l k) (gd l ((k - 1) / 2)) = false) →
    (0 < j → ∀ c, c < l.length → (c - 1) / 2 = j →
      lessReq (gd l c) (gd l ((j - 1) / 2)) = false) →
    heapInv (upAux fuel l j) := by
  intro fuel
  induction fuel with
  | zero => intro l j _ hfuel _ _; omega
  | succ f ih =>
    intro l j hj hfuel H1 H2
    unfold upAux
    by_cases h0 : j = 0
    · simp only [h0, if_true]
      intro k hk0 hkl
      exact H1 k hk0 hkl (by omega)
    · simp only [h0, if_false]
      by_cases hlt : lessReq (gd l j) (gd l ((j - 1) / 2)) = true
      · simp only [hlt, if_true]
        have hij : (j - 1) / 2 < j := by omega
        have hil : (j - 1) / 2 < l.length := by omega
        -- after the swap, the exception moves to the parent index
        apply ih (swapL l ((j - 1) / 2) j) ((j - 1) / 2)
          (by rw [length_swapL]; omega) (by omega)
        · -- all edges except the one into the parent index hold
          intro k hk0 hkl hki
          rw [length_swapL] at hkl
          by_cases hkj : k = j
          · -- the swapped pair itself
            subst hkj
            rw [gd_swapL_snd l _ _ hil hj, gd_swapL_fst l _ _ hil (by omega)]
            exact lr_asymm hlt
          · have hgk : gd (swapL l ((j - 1) / 2) j) k = gd l k :=
              gd_swapL_other l _ _ _ hki hkj
            by_cases hpi : (k - 1) / 2 = (j - 1) / 2
            · -- sibling of j under the same parent
              rw [hgk, hpi, gd_swapL_fst l _ _ hil (by omega)]
              exact lr_lt_le hlt (hpi ▸ H1 k hk0 hkl hkj)
            · by_cases hpj : (k - 1) / 2 = j
              · -- a child of j: use the grandparent condition
                rw [hgk, hpj, gd_swapL_snd l _ _ hil hj]
                exact H2 (by omega) k hkl hpj
              · -- untouched edge
                rw [hgk, gd_swapL_other l _ _ _ hpi hpj]
                exact H1 k hk0 hkl hkj
        · -- grandparent condition at the parent index
          intro hpos c hcl hpc
          rw [length_swapL] at hcl
          have hgg : gd (swapL l ((j - 1) / 2) j) (((j - 1) / 2 - 1) / 2) =
              gd l (((j - 1) / 2 - 1) / 2) :=
            gd_swapL_other l _ _ _ (by omega) (by omega)
          rw [hgg]
          by_cases hcj : c = j
          · subst hcj
            rw [gd_swapL_snd l _ _ hil hj]
            exact H1 _ hpos hil (by omega)
          · rw [gd_swapL_other l _ _ _ (by omega) hcj]
            exact lr_le_trans (H1 _ hpos hil (by omega))
              (hpc ▸ H1 c (by omega) hcl hcj)
      · simp only [hlt, if_false]
        intro k hk0 hkl
        by_cases hkj : k = j
        · subst hkj
          exact Bool.not_eq_true _ ▸ (Bool.eq_false_iff.mpr hlt)
        · exact H1 k hk0 hkl hkj

/-- `Enqueue` preserves the heap invariant. -/
theorem heapPush_inv (l : List PendingRequest) (x : PendingRequest)
    (h : heapInv l) : heapInv (heapPush l x) := by
  unfold heapPush
  apply upAux_inv (l.length + 1) (l ++ [x]) l.length (by simp) (le_refl _)
  · intro k hk0 hklen hkne
    have hk : k < l.length := by
      simp only [List.length_append, List.length_cons, List.length_nil] at hklen
      omega
    have hpar : (k - 1) / 2 < l.length := by omega
    rw [gd_append_lt _ _ _ hk, gd_append_lt _ _ _ hpar]
    exact h k hk0 hk
  · intro hpos c hc hpc
    exfalso
    simp only [List.length_append, List.length_cons, List.length_nil] at hc
    omega

/-- Sift-down correctness: if all heap edges within `[0, n)` hold except
possibly those out of `i`, and every child of `i` does not precede `i`'s
parent, then sifting down from `i` restores the heap property on the
prefix. -/
theorem downAux_inv : ∀ (fuel : Nat) (l : List PendingRequest) (i n : Nat),
    n ≤ l.length → n ≤ fuel + i →
    (∀ k, 0 < k → k < n → (k - 1) / 2 ≠ i →
      lessReq (gd l k) (gd l ((k - 1) / 2)) = false) →
    (0 < i → ∀ c, c < n → (c - 1) / 2 = i →
      lessReq (gd l c) (gd l ((i - 1) / 2)) = false) →
    heapInvTo (downAux fuel l i n) n := by
  intro fuel
  induction fuel with
  | zero =>
    intro l i n hn hfuel H1 _
    intro k hk0 hkn
    exact H1 k hk0 hkn (by omega)
  | succ f ih =>
    intro l i n hn hfuel H1 H2
    unfold downAux
    by_cases hc : 2 * i + 1 < n
    · simp only [hc, if_true]
      set j := if 2 * i + 2 < n ∧ lessReq (gd l (2 * i + 2)) (gd l (2 * i + 1)) = true
               then 2 * i + 2 else 2 * i + 1 with hjdef
      by_cases hlt : lessReq (gd l j) (gd l i) = true
      · simp only [hlt, if_true]
        by_cases hsel : 2 * i + 2 < n ∧ lessReq (gd l (2 * i + 2)) (gd l (2 * i + 1)) = true
        · -- the right child is the Less-smaller one: j = 2i+2
          have hj : j = 2 * i + 2 := by rw [hjdef, if_pos hsel]
          rw [hj] at hlt ⊢
          apply ih (swapL l i (2 * i + 2)) (2 * i + 2) n
            (by rw [length_swapL]; exact hn) (by omega)
          · intro k hk0 hkn hkp
            by_cases hki : k = i
            · rw [hki]
              rw [gd_swapL_fst l _ _ (by omega) (by omega),
                  gd_swapL_other l _ _ _ (by omega) (by omega)]
              exact H2 (by omega) (2 * i + 2) hsel.1 (by omega)
            · by_cases hkj : k = 2 * i + 2
              · subst hkj
                have hpar : (2 * i + 2 - 1) / 2 = i := by omega
                rw [hpar, gd_swapL_snd l _ _ (by omega) (by omega),
                    gd_swapL_fst l _ _ (by omega) (by omega)]
                exact lr_asymm hlt
              · have hgk : gd (swapL l i (2 * i + 2)) k = gd l k :=
                  gd_swapL_other l _ _ _ hki hkj
                by_cases hpi : (k - 1) / 2 = i
                · -- the left sibling 2i+1
                  have hks : k = 2 * i + 1 := by omega
                  subst hks
                  rw [hgk, hpi, gd_swapL_fst l _ _ (by omega) (by omega)]
                  exact lr_asymm hsel.2
                · rw [hgk, gd_swapL_other l _ _ _ hpi hkp]
                  exact H1 k hk0 hkn hpi
          · intro _ c hcn hpc
            have hpar : (2 * i + 2 - 1) / 2 = i := by omega
            rw [hpar, gd_swapL_fst l _ _ (by omega) (by omega),
                gd_swapL_other l _ _ _ (by omega) (by omega)]
            exact hpc ▸ H1 c (by omega) hcn (by omega)
        · -- the left child is chosen: j = 2i+1
          have hj : j = 2 * i + 1 := by rw [hjdef, if_neg hsel]
          rw [hj] at hlt ⊢
          apply ih (swapL l i (2 * i + 1)) (2 * i + 1) n
            (by rw [length_swapL]; exact hn) (by omega)
          · intro k hk0 hkn hkp
            by_cases hki : k = i
            · rw [hki]
              rw [gd_swapL_fst l _ _ (by omega) (by omega),
                  gd_swapL_other l _ _ _ (by omega) (by omega)]
              exact H2 (by omega) (2 * i + 1) (by omega) (by omega)
            · by_cases hkj : k = 2 * i + 1
              · subst hkj
                have hpar : (2 * i + 1 - 1) / 2 = i := by omega
                rw [hpar, gd_swapL_snd l _ _ (by omega) (by omega),
                    gd_swapL_fst l _ _ (by omega) (by omega)]
                exact lr_asymm hlt
              · have hgk : gd (swapL l i (2 * i + 1)) k = gd l k :=
                  gd_swapL_other l _ _ _ hki hkj
                by_cases hpi : (k - 1) / 2 = i
                · -- the right sibling 2i+2, which is within range here
                  have hks : k = 2 * i + 2 := by omega
                  subst hks
                  rw [hgk, hpi, gd_swapL_fst l _ _ (by omega) (by omega)]
                  exact Bool.eq_false_iff.mpr fun hb => hsel ⟨by omega, hb⟩
                · rw [hgk, gd_swapL_other l _ _ _ hpi hkp]
                  exact H1 k hk0 hkn hpi
          · intro _ c hcn hpc
            have hpar : (2 * i + 1 - 1) / 2 = i := by omega
            rw [hpar, gd_swapL_fst l _ _ (by omega) (by omega),
                gd_swapL_other l _ _ _ (by omega) (by omega)]
            exact hpc ▸ H1 c (by omega) hcn (by omega)
      · simp only [hlt, if_false]
        intro k hk0 hkn
        by_cases hpi : (k - 1) / 2 = i
        · rw [hpi]
          by_cases hsel : 2 * i + 2 < n ∧ lessReq (gd l (2 * i + 2)) (gd l (2 * i + 1)) = true
          · have hj : j = 2 * i + 2 := by rw [hjdef, if_pos hsel]
            rw [hj] at hlt
            have hlt' : lessReq (gd l (2 * i + 2)) (gd l i) = false :=
              Bool.eq_false_iff.mpr hlt
            by_cases hkr : k = 2 * i + 2
            · subst hkr
              exact hlt'
            · have hks : k = 2 * i + 1 := by omega
              subst hks
              exact lr_cancel hsel.2 hlt'
          · have hj : j = 2 * i + 1 := by rw [hjdef, if_neg hsel]
            rw [hj] at hlt
            have hlt' : lessReq (gd l (2 * i + 1)) (gd l i) = false :=
              Bool.eq_false_iff.mpr hlt
            by_cases hkl : k = 2 * i + 1
            · subst hkl
              exact hlt'
            · have hks : k = 2 * i + 2 := by omega
              subst hks
              have hsel' : lessReq (gd l (2 * i + 2)) (gd l (2 * i + 1)) = false :=
                Bool.eq_false_iff.mpr fun hb => hsel ⟨by omega, hb⟩
              exact lr_le_trans hlt' hsel'
        · exact H1 k hk0 hkn hpi
    · simp only [hc, if_false]
      intro k hk0 hkn
      exact H1 k hk0 hkn (by omega)

/-- `heap.Pop` on a non-empty heap returns the root — a `Less`-minimal
element — and leaves a heap of the remaining elements. -/
theorem heapPop_spec (l : List PendingRequest) (hne : l ≠ []) (hinv : heapInv l) :
    ∃ x l', heapPop l = some (x, l') ∧ (x :: l').Perm l ∧
      l'.length = l.length - 1 ∧ heapInv l' ∧ ∀ y ∈ l, lessReq y x = false := by
  cases l with
  | nil => exact absurd rfl hne
  | cons a t =>
    have hpop : heapPop (a :: t) =
        some (gd (downAux (a :: t).length (swapL (a :: t) 0 ((a :: t).length - 1)) 0
            ((a :: t).length - 1)) ((a :: t).length - 1),
          (downAux (a :: t).length (swapL (a :: t) 0 ((a :: t).length - 1)) 0
            ((a :: t).length - 1)).take ((a :: t).length - 1)) := rfl
    set n := (a :: t).length - 1 with hn
    set l2 := downAux (a :: t).length (swapL (a :: t) 0 n) 0 n with hl2
    obtain ⟨hperm, hlen⟩ := heapPop_perm hpop
    refine ⟨_, _, hpop, hperm, hlen, ?_, ?_⟩
    · have hlen2 : l2.length = n + 1 := by
        rw [hl2, length_downAux, length_swapL]
        simp [hn]
      have hinv2 : heapInvTo l2 n := by
        rw [hl2]
        apply downAux_inv _ _ _ _ (by rw [length_swapL]; omega) (by omega)
        · intro k hk0 hkn hkp
          rw [gd_swapL_other _ _ _ _ (by omega) (by omega),
              gd_swapL_other _ _ _ _ (by omega) (by omega)]
          exact hinv k hk0 (by omega)
        · intro h0
          exact absurd h0 (lt_irrefl 0)
      intro k hk0 hkl
      rw [List.length_take] at hkl
      have hkn : k < n := by omega
      rw [gd_take _ _ _ hkn (by omega), gd_take _ _ _ (by omega) (by omega)]
      exact hinv2 k hk0 hkn
    · have hx : gd l2 n = gd (a :: t) 0 := by
        rw [hl2, downAux_gd_ge _ _ _ _ _ (le_refl n),
            gd_swapL_snd _ _ _ (by simp) (by simp [hn])]
      intro y hy
      obtain ⟨k, hk, hyk⟩ := List.getElem_of_mem hy
      have hgy : gd (a :: t) k = y := by
        rw [gd, List.getD_eq_getElem _ _ hk, hyk]
      rw [hx, ← hgy]
      exact heapInvTo_root_min _ _ hinv k hk

/-- Iterated popping returns a `Less`-sorted list of minima: the outputs
are pairwise ordered, everything left in the queue is `Less`-no-smaller
than everything returned, contents are preserved, and the heap property is
maintained. -/
theorem popCount_spec : ∀ (k : Nat) (l : List PendingRequest),
    heapInv l → k ≤ l.length →
    (popCount k l).1.length = k ∧
    ((popCount k l).1 ++ (popCount k l).2).Perm l ∧
    heapInv (popCount k l).2 ∧
    (popCount k l).2.length = l.length - k ∧
    (popCount k l).1.Pairwise (fun a b => lessReq b a = false) ∧
    (∀ x ∈ (popCount k l).1, ∀ y ∈ (popCount k l).2, lessReq y x = false) := by
  intro k
  induction k with
  | zero =>
    intro l hinv _
    refine ⟨rfl, List.Perm.refl l, hinv, rfl, List.Pairwise.nil, ?_⟩
    intro x hx
    exact absurd hx (List.not_mem_nil x)
  | succ k' ih =>
    intro l hinv hk
    have hne : l ≠ [] := by
      intro h
      subst h
      simp at hk
    obtain ⟨x, l', hpop, hperm, hlen, hinv', hmin⟩ := heapPop_spec l hne hinv
    have hk' : k' ≤ l'.length := by omega
    obtain ⟨ih1, ih2, ih3, ih4, ih5, ih6⟩ := ih l' hinv' hk'
    have hmem : ∀ z ∈ l', z ∈ l := fun z hz =>
      hperm.mem_iff.mp (List.mem_cons_of_mem x hz)
    simp only [popCount, hpop]
    refine ⟨by simp [ih1], (ih2.cons x).trans hperm, ih3, ?_, ?_, ?_⟩
    · rw [ih4, hlen]
      omega
    · refine List.pairwise_cons.mpr ⟨?_, ih5⟩
      intro b hb
      have hbl' : b ∈ l' := ih2.mem_iff.mp (List.mem_append_left _ hb)
      exact hmin b (hmem b hbl')
    · intro z hz y hy
      rcases List.mem_cons.mp hz with rfl | hz'
      · have hyl' : y ∈ l' := ih2.mem_iff.mp (List.mem_append_right _ hy)
        exact hmin y (hmem y hyl')
      · exact ih6 z hz' y hy

/-- Every reachable queue state satisfies the heap invariant. -/
theorem reachable_heapInv : ∀ {l : List PendingRequest},
    QueueReachable l → heapInv l := by
  intro l h
  induction h with
  | empty =>
    intro j h0 hj
    simp at hj
  | enq r _ ih => exact heapPush_inv _ _ ih
  | deq n _ ih =>
    rename_i lq hq
    cases lq with
    | nil =>
      intro j h0 hj
      simp [dequeueN] at hj
    | cons a t =>
      exact (popCount_spec (min n (a :: t).length) (a :: t) ih
        (Nat.min_le_right _ _)).2.2.1

/-- C3: on every reachable queue state, `DequeueN n` returns
`min n depth` items (none on an empty queue, fewer than `n` if the queue
holds fewer), the items returned followed by the items left are a
permutation of the queue contents, the returned items are ordered by
(priority descending, client timestamp ascending), and no returned item is
preceded in that order by any item left behind — no request is returned
while a strictly higher-priority request remains, and within one priority
an earlier-timestamped request is never returned after, or left behind in
favour of, a later one. -/
theorem dequeueN_ordering (l : List PendingRequest) (hl : QueueReachable l) (n : Nat) :
    (l = [] → dequeueN l n = ([], [])) ∧
    (dequeueN l n).1.length = min n l.length ∧
    (dequeueN l n).2.length = l.length - min n l.length ∧
    ((dequeueN l n).1 ++ (dequeueN l n).2).Perm l ∧
    (dequeueN l n).1.Pairwise (fun a b =>
      b.req.priority < a.req.priority ∨
        (a.req.priority = b.req.priority ∧ a.req.timestamp ≤ b.req.timestamp)) ∧
    (∀ x ∈ (dequeueN l n).1, ∀ y ∈ (dequeueN l n).2,
      ¬ x.req.priority < y.req.priority ∧
        (x.req.priority = y.req.priority → x.req.timestamp ≤ y.req.timestamp)) := by
  have hinv := reachable_heapInv hl
  cases l with
  | nil =>
    refine ⟨fun _ => rfl, by simp [dequeueN], by simp [dequeueN], by simp [dequeueN],
      by simp [dequeueN], by simp [dequeueN]⟩
  | cons a t =>
    obtain ⟨h1, h2, h3, h4, h5, h6⟩ :=
      popCount_spec (min n (a :: t).length) (a :: t) hinv (Nat.min_le_right _ _)
    have hds : dequeueN (a :: t) n = popCount (min n (a :: t).length) (a :: t) := rfl
    rw [hds]
    refine ⟨fun h => absurd h (by simp), h1, h4, h2, ?_, ?_⟩
    · refine h5.imp ?_
      intro a' b' hab
      rw [lessReq_false_iff] at hab
      omega
    · intro x hx y hy
      have := h6 x hx y hy
      rw [lessReq_false_iff] at this
      omega

/-- Concrete requests for the C3 witness. -/
def rqLow1 : PendingRequest := { req := { requestId := "low1", priority := 0, timestamp := 1 } }
def rqHi : PendingRequest := { req := { requestId := "hi", priority := 2, timestamp := 5 } }
def rqLow2 : PendingRequest := { req := { requestId := "low2", priority := 0, timestamp := 0 } }
def rqMed : PendingRequest := { req := { requestId := "med", priority := 1, timestamp := 3 } }

/-- A reachable four-element queue: two LOW, one HIGH, one MEDIUM. -/
def demoQueue : List PendingRequest :=
  heapPush (heapPush (heapPush (heapPush [] rqLow1) rqHi) rqLow2) rqMed

/-- C3 witness: the theorem applied to the concrete reachable queue;
`DequeueN 3` concretely returns HIGH, then MEDIUM, then the LOW with the
earlier timestamp, leaving the later LOW behind. -/
theorem dequeueN_ordering_witness :
    QueueReachable demoQueue ∧
    ((dequeueN demoQueue 3).1.map fun r => r.req.requestId) = ["hi", "med", "low2"] ∧
    ((dequeueN demoQueue 3).2.map fun r => r.req.requestId) = ["low1"] ∧
    (dequeueN demoQueue 3).1.length = min 3 demoQueue.length :=
  ⟨QueueReachable.enq rqMed (QueueReachable.enq rqLow2 (QueueReachable.enq rqHi
      (QueueReachable.enq rqLow1 QueueReachable.empty))),
   by decide, by decide,
   (dequeueN_ordering demoQueue
      (QueueReachable.enq rqMed (QueueReachable.enq rqLow2 (QueueReachable.enq rqHi
        (QueueReachable.enq rqLow1 QueueReachable.empty)))) 3).2.1⟩

end GpuRouter
